import Mathlib

set_option maxHeartbeats 1000000
set_option maxRecDepth 10000

/-! Shallow embedding of the json-rs JSON parser (src/lib.rs and src/stack/).
    Rust strings are modeled as `List Char`.  Rust `f64` numbers are modeled
    as exact rationals in lowest terms (`ExactRat`): every numeric literal
    appearing in the verified statements is a small integer, for which the
    double value is exact.  Rust `HashMap<String, JsonValue>` is modeled as
    an association list with the insert-overwrites-existing-key semantics
    of `HashMap::insert`. -/

/-- Euclidean gcd with explicit fuel, so that the kernel can evaluate it
    (`Nat.gcd` itself is defined by well-founded recursion and does not
    reduce definitionally).  `gcdFuel f m n` computes `Nat.gcd m n`
    whenever `f ≥ m`. -/
def gcdFuel : Nat → Nat → Nat → Nat
  | 0, _, n => n
  | _ + 1, 0, n => n
  | f + 1, m, n => gcdFuel f (n % m) m

def natGcd (m n : Nat) : Nat := gcdFuel m m n

/-- An exact rational in lowest terms: the model of an `f64` value. -/
structure ExactRat where
  num : Int
  den : Nat
deriving DecidableEq

/-- Reduce `num / den` to lowest terms (`den` is never zero here). -/
def normRat (num : Int) (den : Nat) : ExactRat :=
  let g := natGcd num.natAbs den
  if g = 0 then ⟨num, den⟩ else ⟨num / (g : Int), den / g⟩

/-- Rust `char::is_whitespace` (Unicode White_Space property). -/
def rustIsWhitespace (c : Char) : Bool :=
  decide (c.toNat = 0x09 ∨ c.toNat = 0x0A ∨ c.toNat = 0x0B ∨ c.toNat = 0x0C ∨
    c.toNat = 0x0D ∨ c.toNat = 0x20 ∨ c.toNat = 0x85 ∨ c.toNat = 0xA0 ∨
    c.toNat = 0x1680 ∨ (0x2000 ≤ c.toNat ∧ c.toNat ≤ 0x200A) ∨
    c.toNat = 0x2028 ∨ c.toNat = 0x2029 ∨ c.toNat = 0x202F ∨
    c.toNat = 0x205F ∨ c.toNat = 0x3000)

/-- Rust `char::is_control` (Unicode general category Cc:
    U+0000..U+001F and U+007F..U+009F). -/
def rustIsControl (c : Char) : Bool :=
  decide (c.toNat ≤ 0x1F ∨ (0x7F ≤ c.toNat ∧ c.toNat ≤ 0x9F))

/-- Rust `char::is_digit(10)`. -/
def rustIsDigit10 (c : Char) : Bool := decide ('0' ≤ c ∧ c ≤ '9')

/-- Rust `char::is_digit(16)`. -/
def rustIsDigit16 (c : Char) : Bool :=
  decide (('0' ≤ c ∧ c ≤ '9') ∨ ('a' ≤ c ∧ c ≤ 'f') ∨ ('A' ≤ c ∧ c ≤ 'F'))

/-- Embedding of `JsonValue` (src/lib.rs).  `Object` is the `HashMap` modeled as an
    association list built by `hashInsert`. -/
inductive JsonValue where
  | Text (s : List Char)
  | Number (n : ExactRat)
  | Boolean (b : Bool)
  | Null
  | Array (items : List JsonValue)
  | Object (entries : List (List Char × JsonValue))

/-- Embedding of `JsonError` (src/lib.rs). -/
inductive JsonError where
  | UnexpectedToken (character : Char) (location : Nat)
  | UnexpectedEOF
deriving DecidableEq

/-- Model of `HashMap::insert`: overwrite the binding when the key is
    already present, otherwise add a new binding. -/
def hashInsert (m : List (List Char × JsonValue)) (k : List Char)
    (v : JsonValue) : List (List Char × JsonValue) :=
  if m.any (fun p => decide (p.1 = k)) then
    m.map (fun p => if p.1 = k then (k, v) else p)
  else m ++ [(k, v)]

/-- Model of `HashMap::get`. -/
def hashGet (m : List (List Char × JsonValue)) (k : List Char) :
    Option JsonValue :=
  (m.find? (fun p => decide (p.1 = k))).map (fun p => p.2)

/-- Model of `str::parse::<usize>()` (Rust stdlib): an optional leading `+`
    followed by one or more ASCII digits; a leading `-` is rejected for the
    unsigned type; a value not below `2^64` overflows to an error. -/
def rustParseUsize (s : List Char) : Option Nat :=
  match s with
  | [] => none
  | c :: rest =>
    if c = '-' then none
    else
      let digits := if c = '+' then rest else c :: rest
      if digits = [] then none
      else if digits.all (fun d => rustIsDigit10 d) then
        let n := digits.foldl (fun a d => a * 10 + (d.toNat - 48)) 0
        if n < 2 ^ 64 then some n else none
      else none

/-- Embedding of `JsonValue::get` (src/lib.rs lines 43-49). -/
def JsonValue.get (v : JsonValue) (key : List Char) : Option JsonValue :=
  match v with
  | .Object m => hashGet m key
  | .Array a => (rustParseUsize key).bind (fun i => a.get? i)
  | _ => none

/-- Embedding of `JsonValue::get_mut` (src/lib.rs lines 71-77); in the pure model the
    lookup it performs is the same as `get`. -/
def JsonValue.get_mut (v : JsonValue) (key : List Char) : Option JsonValue :=
  match v with
  | .Object m => hashGet m key
  | .Array a => (rustParseUsize key).bind (fun i => a.get? i)
  | _ => none

/-- Embedding of `unicode_escape` (src/lib.rs lines 128-130): lowercase hex of the code
    point, left-padded with zeros to at least four digits. -/
def unicode_escape (c : Char) : List Char :=
  let h := Nat.toDigits 16 c.toNat
  '\\' :: 'u' :: (List.replicate (4 - h.length) '0' ++ h)

/-- One character of `escape_str`'s closure (src/lib.rs lines 138-150). -/
def escapeChar (c : Char) : List Char :=
  if c = '\n' then ['\\', 'n']
  else if c = '\t' then ['\\', 't']
  else if c = '\r' then ['\\', 'r']
  else if c.toNat = 0x08 then ['\\', 'b']
  else if c.toNat = 0x0C then ['\\', 'f']
  else if c = '\\' then ['\\', '\\']
  else if c = '\"' then ['\\', '\"']
  else if c.toNat ≤ 0x1F then unicode_escape c
  else [c]

/-- Embedding of `escape_str` (src/lib.rs lines 132-153). -/
def escape_str (text : List Char) : List Char :=
  '\"' :: (text.foldr (fun c acc => escapeChar c ++ acc) ['\"'])


/-- Equality on `Except` is decidable when it is on both components. -/
instance {e a : Type} [DecidableEq e] [DecidableEq a] :
    DecidableEq (Except e a) := fun x y =>
  match x, y with
  | .ok u, .ok v =>
    if h : u = v then isTrue (by rw [h])
    else isFalse (fun hc => by cases hc; exact h rfl)
  | .error u, .error v =>
    if h : u = v then isTrue (by rw [h])
    else isFalse (fun hc => by cases hc; exact h rfl)
  | .ok _, .error _ => isFalse (fun hc => by cases hc)
  | .error _, .ok _ => isFalse (fun hc => by cases hc)

/-- Embedding of `BOOL_STRS` (src/stack/pending.rs line 3). -/
def BOOL_STRS : List (List Char) := ["true".toList, "false".toList]

/-- Embedding of `NULL_STRS` (src/stack/pending.rs line 4). -/
def NULL_STRS : List (List Char) := ["null".toList]

/-- Embedding of `StringMatcherStack` (src/stack/pending.rs lines 10-40). -/
structure StringMatcherStack where
  inner_string : List Char
  matchers : List (List Char)
deriving DecidableEq

/-- Embedding of `StringMatcherStack::push` (src/stack/pending.rs lines 24-32).  The
    mutation of `inner_string` is modeled by returning the updated stack. -/
def StringMatcherStack.push (s : StringMatcherStack) (c : Char) :
    Except Char (Bool × StringMatcherStack) :=
  let concatenated := s.inner_string ++ [c]
  if s.matchers.any (fun m => concatenated.isPrefixOf m) then
    .ok (s.matchers.contains concatenated,
      { s with inner_string := concatenated })
  else .error c

/-- Embedding of `StringMatcherStack::into_string` (src/stack/pending.rs lines 34-39). -/
def StringMatcherStack.into_string (s : StringMatcherStack) :
    Except Unit (List Char) :=
  if s.matchers.contains s.inner_string then .ok s.inner_string else .error ()

/-- Embedding of `BoolStack` (src/stack/pending.rs lines 42-81). -/
structure BoolStack where
  matcher_stack : StringMatcherStack
deriving DecidableEq

def BoolStack.new : BoolStack := ⟨⟨[], BOOL_STRS⟩⟩

def BoolStack.init_true : BoolStack := ⟨⟨['t'], BOOL_STRS⟩⟩

def BoolStack.init_false : BoolStack := ⟨⟨['f'], BOOL_STRS⟩⟩

def BoolStack.push (s : BoolStack) (c : Char) :
    Except Char (Bool × BoolStack) :=
  match s.matcher_stack.push c with
  | .ok (b, m) => .ok (b, ⟨m⟩)
  | .error c' => .error c'

/-- Embedding of `IntoJson for BoolStack`: `into_string` then `str::parse::<bool>`,
    which accepts exactly `true` and `false`. -/
def BoolStack.into_json (s : BoolStack) : Except Unit JsonValue :=
  match s.matcher_stack.into_string with
  | .error _ => .error ()
  | .ok st =>
    if st = "true".toList then .ok (.Boolean true)
    else if st = "false".toList then .ok (.Boolean false)
    else .error ()

/-- Embedding of `NullStack` (src/stack/pending.rs lines 83-114). -/
structure NullStack where
  matcher_stack : StringMatcherStack
deriving DecidableEq

def NullStack.new : NullStack := ⟨⟨[], NULL_STRS⟩⟩

def NullStack.init_n : NullStack := ⟨⟨['n'], NULL_STRS⟩⟩

def NullStack.push (s : NullStack) (c : Char) :
    Except Char (Bool × NullStack) :=
  match s.matcher_stack.push c with
  | .ok (b, m) => .ok (b, ⟨m⟩)
  | .error c' => .error c'

def NullStack.into_json (s : NullStack) : Except Unit JsonValue :=
  match s.matcher_stack.into_string with
  | .error _ => .error ()
  | .ok _ => .ok .Null

/-- Embedding of `EscapeType` (src/stack/pending.rs lines 116-120). -/
inductive EscapeType where
  | SimpleChar (c : Char)
  | Unicode (s : List Char)
deriving DecidableEq

/-- Embedding of `EscapeSequence` (src/stack/pending.rs lines 122-168). -/
structure EscapeSequence where
  inner : Option EscapeType
deriving DecidableEq

def EscapeSequence.new : EscapeSequence := ⟨none⟩

/-- The mapping of simple escapes (src/stack/pending.rs lines 137-145). -/
def simpleEscapeChar (c : Char) : Option Char :=
  if c = 'n' then some '\n'
  else if c = 't' then some '\t'
  else if c = 'r' then some '\r'
  else if c = 'b' then some '\x08'
  else if c = 'f' then some '\x0C'
  else if c = '\\' ∨ c = '\"' then some c
  else none

/-- Embedding of `EscapeSequence::push` (src/stack/pending.rs lines 132-157). -/
def EscapeSequence.push (e : EscapeSequence) (c : Char) :
    Except Char (Bool × EscapeSequence) :=
  match e.inner with
  | none =>
    if c = 'u' then .ok (false, ⟨some (.Unicode [])⟩)
    else
      match simpleEscapeChar c with
      | some ch => .ok (true, ⟨some (.SimpleChar ch)⟩)
      | none => .error c
  | some (.Unicode s) =>
    if rustIsDigit16 c ∧ s.length < 4 then
      .ok ((s.length + 1 = 4 : Bool), ⟨some (.Unicode (s ++ [c]))⟩)
    else .error c
  | some (.SimpleChar _) => .error c

/-- Embedding of `u32::from_str_radix(s, 16)` on the at-most-4 hex digits collected. -/
def hexVal (s : List Char) : Option Nat :=
  if s ≠ [] ∧ s.all (fun c => rustIsDigit16 c) then
    some (s.foldl (fun a c =>
      a * 16 + (if c.toNat ≥ 97 then c.toNat - 87
                else if c.toNat ≥ 65 then c.toNat - 55
                else c.toNat - 48)) 0)
  else none

/-- Embedding of `char::from_u32`. -/
def rustFromU32 (n : Nat) : Option Char :=
  if h : n.isValidChar then some (Char.ofNatAux n h) else none

/-- Embedding of `EscapeSequence::into_char` (src/stack/pending.rs lines 159-168). -/
def EscapeSequence.into_char (e : EscapeSequence) : Except Unit Char :=
  match e.inner with
  | some (.Unicode s) =>
    if s.length = 4 then
      match (hexVal s).bind rustFromU32 with
      | some ch => .ok ch
      | none => .error ()
    else .error ()
  | some (.SimpleChar c) => .ok c
  | none => .error ()

/-- Embedding of `TextStack` (src/stack/pending.rs lines 171-226). -/
structure TextStack where
  inner : List Char
  completed : Bool
  escape : Option EscapeSequence
deriving DecidableEq

def TextStack.new : TextStack := ⟨[], false, none⟩

/-- Embedding of `PendingStack<char> for TextStack` (src/stack/pending.rs lines 199-226). -/
def TextStack.push (t : TextStack) (c : Char) :
    Except Char (Bool × TextStack) :=
  match t.escape with
  | some seq =>
    match seq.push c with
    | .error c' => .error c'
    | .ok (true, seq') =>
      match seq'.into_char with
      | .ok ch => .ok (false, { t with escape := none, inner := t.inner ++ [ch] })
      | .error _ => .error c
    | .ok (false, seq') => .ok (false, { t with escape := some seq' })
  | none =>
    if c = '\"' ∧ !t.completed then .ok (true, { t with completed := true })
    else if c = '\\' ∧ !t.completed then
      .ok (false, { t with escape := some EscapeSequence.new })
    else if !t.completed ∧ !(rustIsControl c) then
      .ok (false, { t with inner := t.inner ++ [c] })
    else .error c

/-- Embedding of `IntoJson for TextStack` (src/stack/pending.rs lines 190-197). -/
def TextStack.into_json (t : TextStack) : Except Unit JsonValue :=
  if t.completed then .ok (.Text t.inner) else .error ()

/-- Embedding of `NumPosition` (src/stack/pending.rs lines 228-234). -/
inductive NumPosition where
  | Whole
  | IntoDecimal
  | Decimal
  | Exponent
deriving DecidableEq

/-- Embedding of `NumberStack` (src/stack/pending.rs lines 236-254). -/
structure NumberStack where
  position : NumPosition
  positive : Bool
  whole : List Char
  decimal : List Char
  exponent : List Char
deriving DecidableEq

def NumberStack.new : NumberStack := ⟨.Whole, true, [], [], []⟩

/-- Embedding of `NumberStack::can_push` (src/stack/pending.rs lines 287-303). -/
def NumberStack.can_push (s : NumberStack) (c : Char) : Bool :=
  match s.position with
  | .Whole =>
    decide ((c = '-' ∧ s.whole = [] ∧ s.positive = true)
      ∨ (c = '0' ∧ s.whole = [])
      ∨ (rustIsDigit10 c = true ∧ ((c ≠ '0' ∧ s.whole = []) ∨ s.whole ≠ []))
      ∨ (s.whole ≠ [] ∧ (c = 'e' ∨ c = 'E'))
      ∨ (c = '.' ∧ s.whole ≠ []))
  | .Exponent =>
    decide (rustIsDigit10 c = true ∨ ((c = '+' ∨ c = '-') ∧ s.exponent = []))
  | .Decimal =>
    decide (rustIsDigit10 c = true ∨ (s.decimal ≠ [] ∧ (c = 'e' ∨ c = 'E')))
  | .IntoDecimal => decide (c = '.')

/-- Embedding of `PendingStack<char> for NumberStack` (src/stack/pending.rs lines
    313-346); the result is always `Ok(false)` on success, so only the
    updated stack is returned. -/
def NumberStack.push (s : NumberStack) (c : Char) : Except Char NumberStack :=
  match s.position with
  | .Whole =>
    if c = '-' ∧ s.whole = [] ∧ s.positive = true then
      .ok { s with positive := false }
    else if c = '0' ∧ s.whole = [] then
      .ok { s with whole := s.whole ++ [c], position := .IntoDecimal }
    else if rustIsDigit10 c = true ∧ ((s.whole = [] ∧ c ≠ '0') ∨ s.whole ≠ []) then
      .ok { s with whole := s.whole ++ [c] }
    else if c = '.' ∧ s.whole ≠ [] then
      .ok { s with position := .Decimal }
    else if s.whole ≠ [] ∧ (c = 'e' ∨ c = 'E') then
      .ok { s with position := .Exponent }
    else .error c
  | .IntoDecimal =>
    if c = '.' then .ok { s with position := .Decimal } else .error c
  | .Decimal =>
    if rustIsDigit10 c = true then .ok { s with decimal := s.decimal ++ [c] }
    else if s.decimal ≠ [] ∧ (c = 'e' ∨ c = 'E') then
      .ok { s with position := .Exponent }
    else .error c
  | .Exponent =>
    if rustIsDigit10 c = true ∨ ((c = '+' ∨ c = '-') ∧ s.exponent = []) then
      .ok { s with exponent := s.exponent ++ [c] }
    else .error c

/-- Numeric value of a list of ASCII digits. -/
def digitsVal (l : List Char) : Nat :=
  l.foldl (fun a d => a * 10 + (d.toNat - 48)) 0

/-- The exponent piece as accepted by `f64::from_str`: optional sign
    followed by one or more digits. -/
def exponentVal (l : List Char) : Option Int :=
  match l with
  | '+' :: rest =>
    if rest ≠ [] ∧ rest.all (fun d => rustIsDigit10 d) then
      some (digitsVal rest : Int)
    else none
  | '-' :: rest =>
    if rest ≠ [] ∧ rest.all (fun d => rustIsDigit10 d) then
      some (-(digitsVal rest : Int))
    else none
  | _ =>
    if l ≠ [] ∧ l.all (fun d => rustIsDigit10 d) then
      some (digitsVal l : Int)
    else none

/-- Embedding of `NumberStack::stringify` followed by `f64::from_str`
    (src/stack/pending.rs lines 256-285 and 306-311), fused: the exact
    value of the decimal literal `[-] whole [. decimal] [e exponent]` as a
    rational in lowest terms.  Rounding to double is not modeled; every
    literal reached in the verified statements is a small integer, where
    the double is exact. -/
def ratOfNumberParts (positive : Bool) (whole decimal exponent : List Char) :
    Option ExactRat :=
  if whole.all (fun d => rustIsDigit10 d) ∧ decimal.all (fun d => rustIsDigit10 d)
      ∧ ¬(whole = [] ∧ decimal = []) then
    let dlen := decimal.length
    let mantissa : Int :=
      ((digitsVal whole * 10 ^ dlen + digitsVal decimal : Nat) : Int)
    let num : Int := if positive then mantissa else -mantissa
    match (if exponent = [] then some 0 else exponentVal exponent) with
    | some e =>
      if 0 ≤ e then some (normRat (num * 10 ^ e.toNat) (10 ^ dlen))
      else some (normRat num (10 ^ dlen * 10 ^ (-e).toNat))
    | none => none
  else none

/-- Embedding of `IntoJson for NumberStack` (src/stack/pending.rs lines 306-311):
    `stringify` fails if the piece demanded by the reached position is
    empty; the produced string is then parsed as a double. -/
def NumberStack.into_json (s : NumberStack) : Except Unit JsonValue :=
  if (s.position = .Whole ∧ s.whole = [])
      ∨ (s.position = .Decimal ∧ s.decimal = [])
      ∨ (s.position = .Exponent ∧ s.exponent = []) then .error ()
  else
    match ratOfNumberParts s.positive s.whole s.decimal s.exponent with
    | some q => .ok (.Number q)
    | none => .error ()


/-- Embedding of `ObjArrItem` (src/stack/mod.rs lines 41-47). -/
inductive ObjArrItem where
  | Colon
  | Comma
  | Item (v : JsonValue)
  | Key (s : List Char)

/-- Embedding of `ArrayStack` (src/stack/array.rs).  The Rust `Vec` pushes at the back,
    so `peek` is the last element. -/
structure ArrayStack where
  inner : List ObjArrItem

def ArrayStack.new : ArrayStack := ⟨[]⟩

def ArrayStack.peek (s : ArrayStack) : Option ObjArrItem := s.inner.getLast?

/-- Embedding of `CheckedStack::push for ArrayStack` (src/stack/array.rs lines 50-64). -/
def ArrayStack.push (s : ArrayStack) (item : ObjArrItem) :
    Except Unit ArrayStack :=
  match s.peek with
  | some .Comma | none =>
    match item with
    | .Item _ => .ok ⟨s.inner ++ [item]⟩
    | _ => .error ()
  | some (.Item _) =>
    match item with
    | .Comma => .ok ⟨s.inner ++ [item]⟩
    | _ => .error ()
  | _ => .error ()

/-- Embedding of `IntoJson for ArrayStack` (src/stack/array.rs lines 20-35): error on a
    trailing comma, otherwise flatten all `Item` tokens. -/
def ArrayStack.into_json (s : ArrayStack) : Except Unit JsonValue :=
  match s.peek with
  | some .Comma => .error ()
  | _ => .ok (.Array (s.inner.filterMap (fun t =>
      match t with
      | .Item i => some i
      | _ => none)))

/-- Embedding of `ObjectStack` (src/stack/object.rs). -/
structure ObjectStack where
  inner : List ObjArrItem

def ObjectStack.new : ObjectStack := ⟨[]⟩

def ObjectStack.peek (s : ObjectStack) : Option ObjArrItem := s.inner.getLast?

/-- Embedding of `CheckedStack::push for ObjectStack` (src/stack/object.rs lines 61-82).
    After a comma or on an empty stack, a `Key` or a string-valued `Item`
    is stored as a `Key`. -/
def ObjectStack.push (s : ObjectStack) (item : ObjArrItem) :
    Except Unit ObjectStack :=
  match s.peek with
  | some .Comma | none =>
    match item with
    | .Key k => .ok ⟨s.inner ++ [.Key k]⟩
    | .Item (.Text k) => .ok ⟨s.inner ++ [.Key k]⟩
    | _ => .error ()
  | some (.Item _) =>
    match item with
    | .Comma => .ok ⟨s.inner ++ [item]⟩
    | _ => .error ()
  | some .Colon =>
    match item with
    | .Item _ => .ok ⟨s.inner ++ [item]⟩
    | _ => .error ()
  | some (.Key _) =>
    match item with
    | .Colon => .ok ⟨s.inner ++ [item]⟩
    | _ => .error ()

/-- Embedding of `ObjArrStack::next_must_be_key for ObjectStack`
    (src/stack/object.rs lines 102-109). -/
def ObjectStack.next_must_be_key (s : ObjectStack) : Bool :=
  match s.peek with
  | some .Comma | none => true
  | _ => false

/-- The grouping loop of `IntoJson for ObjectStack`
    (src/stack/object.rs lines 30-40): `shift_multi(4)` chunks must be
    `Key Colon Item Comma`, the final chunk may omit the comma; each pair
    is inserted into the map. -/
def objFinalizeLoop (l : List ObjArrItem)
    (dict : List (List Char × JsonValue)) :
    Except Unit (List (List Char × JsonValue)) :=
  match l with
  | [] => .ok dict
  | [.Key k, .Colon, .Item v] => .ok (hashInsert dict k v)
  | .Key k :: .Colon :: .Item v :: .Comma :: rest =>
    objFinalizeLoop rest (hashInsert dict k v)
  | _ => .error ()

/-- Embedding of `IntoJson for ObjectStack` (src/stack/object.rs lines 20-46). -/
def ObjectStack.into_json (s : ObjectStack) : Except Unit JsonValue :=
  match s.peek with
  | some .Comma => .error ()
  | _ =>
    match objFinalizeLoop s.inner [] with
    | .ok dict => .ok (.Object dict)
    | .error _ => .error ()

/-- The two concrete `ObjArrStack` trait objects of `PendingItem::ObjArr`. -/
inductive ObjArrBox where
  | arrB (s : ArrayStack)
  | objB (s : ObjectStack)

/-- Embedding of `ObjArrStack::get_delimiter` (src/stack/array.rs lines 72-74,
    src/stack/object.rs lines 90-96). -/
def ObjArrBox.get_delimiter (b : ObjArrBox) (c : Char) : Option ObjArrItem :=
  match b with
  | .arrB _ => if c = ',' then some .Comma else none
  | .objB _ =>
    if c = ',' then some .Comma
    else if c = ':' then some .Colon
    else none

/-- Embedding of `ObjArrStack::is_end_char` (src/stack/array.rs lines 76-78,
    src/stack/object.rs lines 98-100). -/
def ObjArrBox.is_end_char (b : ObjArrBox) (c : Char) : Bool :=
  match b with
  | .arrB _ => c = ']'
  | .objB _ => c = '\x7d'

/-- Embedding of `ObjArrStack::next_must_be_key` (false for arrays). -/
def ObjArrBox.next_must_be_key (b : ObjArrBox) : Bool :=
  match b with
  | .arrB _ => false
  | .objB o => o.next_must_be_key

/-- Embedding of `CheckedStack::push` dispatched through the trait object. -/
def ObjArrBox.pushTok (b : ObjArrBox) (t : ObjArrItem) :
    Except Unit ObjArrBox :=
  match b with
  | .arrB a => (a.push t).map .arrB
  | .objB o => (o.push t).map .objB

/-- Embedding of `IntoJson` dispatched through the trait object. -/
def ObjArrBox.into_json (b : ObjArrBox) : Except Unit JsonValue :=
  match b with
  | .arrB a => a.into_json
  | .objB o => o.into_json

/-- The three concrete `SimpleStack` trait objects of
    `PendingItem::Simple`. -/
inductive SimpleBox where
  | textS (t : TextStack)
  | boolS (b : BoolStack)
  | nullS (n : NullStack)

/-- Embedding of `PendingStack::push` dispatched through the trait object. -/
def SimpleBox.push (s : SimpleBox) (c : Char) :
    Except Char (Bool × SimpleBox) :=
  match s with
  | .textS t =>
    match t.push c with
    | .ok (b, t') => .ok (b, .textS t')
    | .error c' => .error c'
  | .boolS bs =>
    match bs.push c with
    | .ok (b, bs') => .ok (b, .boolS bs')
    | .error c' => .error c'
  | .nullS n =>
    match n.push c with
    | .ok (b, n') => .ok (b, .nullS n')
    | .error c' => .error c'

/-- Embedding of `IntoJson` dispatched through the trait object. -/
def SimpleBox.into_json (s : SimpleBox) : Except Unit JsonValue :=
  match s with
  | .textS t => t.into_json
  | .boolS b => b.into_json
  | .nullS n => n.into_json

/-- Embedding of `PendingItem` (src/stack/mod.rs lines 33-39). -/
inductive PendingItem where
  | ObjArr (s : ObjArrBox)
  | Simple (s : SimpleBox)
  | Number (s : NumberStack)
  | FinalizedJsonValue (v : JsonValue)

/-- Embedding of `StackCounter` (src/stack/mod.rs lines 73-117).  The `inner` String of
    brackets grows at the back (`String::push` / `String::pop`). -/
structure StackCounter where
  inner : List Char
  in_string : Bool
  escape : Bool
deriving DecidableEq

def StackCounter.new : StackCounter := ⟨[], false, false⟩

/-- Embedding of `StackCounter::push` (src/stack/mod.rs lines 89-108), with the arms in
    source order. -/
def StackCounter.push (s : StackCounter) (c : Char) :
    Except Unit StackCounter :=
  if (c = '\x7b' ∨ c = '[') ∧ s.in_string = false then
    .ok { s with inner := s.inner ++ [c] }
  else if (c = '\x7d' ∨ c = ']') ∧ s.in_string = false then
    match s.inner.getLast? with
    | some last =>
      if (last = '[' ∧ c = ']') ∨ (last = '\x7b' ∧ c = '\x7d') then
        .ok { s with inner := s.inner.dropLast }
      else .error ()
    | none => .error ()
  else if s.escape = true then .ok { s with escape := false }
  else if c = '\\' ∧ s.in_string = true then .ok { s with escape := true }
  else if c = '\"' then .ok { s with in_string := !s.in_string }
  else .ok s

def StackCounter.level (s : StackCounter) : Nat := s.inner.length

/-- Embedding of `tok_err` (src/lib.rs lines 234-239). -/
def tok_err (c : Char) (loc : Nat) : JsonError :=
  .UnexpectedToken c loc

/-- The loop-local state of `json_parse_internal` (src/lib.rs lines
    241-256): the pending item, the depth tracker, the offset of the first
    buffered character, the buffered raw characters, the quoted-key flag,
    and the absolute position of the character about to be processed. -/
structure ParseState where
  processing : Option PendingItem
  counter : StackCounter
  error_ind : Option Nat
  content_str : List Char
  next_must_be_quote : Bool
  pos : Nat

/-- Initial state of `json_parse_internal` with base offset `pos`. -/
def initParseState (pos : Nat) : ParseState :=
  ⟨none, StackCounter.new, none, [], false, pos⟩

/-- Embedding of `content_str.trim().len() > 0`: some buffered character is not
    whitespace. -/
def contentNonWs (l : List Char) : Bool :=
  l.any (fun ch => !(rustIsWhitespace ch))

/-- Finalization of a number automaton by the driver (src/lib.rs lines
    272-281 and 356-365): if the next character (if any) can be pushed the
    automaton stays pending, otherwise it is finalized now; a finalization
    failure blames the peeked character at `pos + 1`, or EOF. -/
def numberFinalize (stack : NumberStack) (peek : Option Char) (st : ParseState) :
    Except JsonError ParseState :=
  match peek with
  | some c2 =>
    if stack.can_push c2 then
      .ok { st with processing := some (.Number stack) }
    else
      match stack.into_json with
      | .ok v => .ok { st with processing := some (.FinalizedJsonValue v) }
      | .error _ => .error (tok_err c2 (st.pos + 1))
  | none =>
    match stack.into_json with
    | .ok v => .ok { st with processing := some (.FinalizedJsonValue v) }
    | .error _ => .error .UnexpectedEOF

/-- The `Some(ObjArr(stack))` arm of the driver loop (src/lib.rs lines
    293-353).  `st.counter` is the tracker state after the current
    character was already fed to it; `sub` is the recursive
    `json_parse_internal` call used on the buffered substring. -/
def objArrStep (sub : List Char → Nat → Except JsonError JsonValue)
    (st : ParseState) (stack : ObjArrBox) (c : Char) :
    Except JsonError ParseState :=
  match (if st.counter.level = 1 ∧ st.counter.in_string = false
         then stack.get_delimiter c else none) with
  | some delimiter =>
    match st.error_ind with
    | some ind =>
      if contentNonWs st.content_str then
        match sub st.content_str ind with
        | .error e =>
          .error (if e = .UnexpectedEOF then tok_err c st.pos else e)
        | .ok json =>
          match stack.pushTok (.Item json) with
          | .error _ => .error (tok_err c st.pos)
          | .ok stack' =>
            match stack'.pushTok delimiter with
            | .error _ => .error (tok_err c st.pos)
            | .ok stack'' =>
              .ok { st with processing := some (.ObjArr stack''),
                            content_str := [], error_ind := none }
      else .error (tok_err c st.pos)
    | none => .error (tok_err c st.pos)
  | none =>
    if stack.is_end_char c ∧ st.counter.level = 0
        ∧ st.counter.in_string = false then
      match
        (match st.error_ind with
         | some ind =>
           if contentNonWs st.content_str then
             match sub st.content_str ind with
             | .error e =>
               .error (if e = .UnexpectedEOF then tok_err c st.pos else e)
             | .ok json =>
               match stack.pushTok (.Item json) with
               | .error _ => .error (tok_err c st.pos)
               | .ok stack' => .ok stack'
           else .ok stack
         | none => .ok stack : Except JsonError ObjArrBox) with
      | .error e => .error e
      | .ok stack' =>
        match stack'.into_json with
        | .ok v =>
          .ok { st with processing := some (.FinalizedJsonValue v),
                        content_str := [], error_ind := none }
        | .error _ => .error (tok_err c st.pos)
    else
      let indNmq : Option Nat × Bool :=
        match st.error_ind with
        | none => (some st.pos, stack.next_must_be_key)
        | some i => (some i, st.next_must_be_quote)
      if indNmq.2 ∧ !(rustIsWhitespace c) ∧ c ≠ '\"' then
        .error (tok_err c st.pos)
      else
        .ok { st with processing := some (.ObjArr stack),
                      error_ind := indNmq.1,
                      content_str := st.content_str ++ [c],
                      next_must_be_quote := indNmq.2 ∧ rustIsWhitespace c }

/-- One iteration of the `while let Some(c)` loop of `json_parse_internal`
    (src/lib.rs lines 257-371), without the final `pos += 1`.  `peek` is
    `chars.peek()` after `c` was taken. -/
def parseStepAux (sub : List Char → Nat → Except JsonError JsonValue)
    (st : ParseState) (c : Char) (peek : Option Char) :
    Except JsonError ParseState :=
  match st.counter.push c with
  | .error _ => .error (tok_err c st.pos)
  | .ok counter =>
    let st := { st with counter := counter }
    match st.processing with
    | none =>
      if c = '\"' then
        .ok { st with processing := some (.Simple (.textS TextStack.new)) }
      else if c = '[' then
        .ok { st with processing := some (.ObjArr (.arrB ArrayStack.new)) }
      else if c = '\x7b' then
        .ok { st with processing := some (.ObjArr (.objB ObjectStack.new)) }
      else if c = 't' then
        .ok { st with processing := some (.Simple (.boolS BoolStack.init_true)) }
      else if c = 'f' then
        .ok { st with processing := some (.Simple (.boolS BoolStack.init_false)) }
      else if c = 'n' then
        .ok { st with processing := some (.Simple (.nullS NullStack.init_n)) }
      else if c = '-' ∨ ('0' ≤ c ∧ c ≤ '9') then
        match NumberStack.new.push c with
        | .error _ => .error (tok_err c st.pos)
        | .ok stack => numberFinalize stack peek st
      else if rustIsWhitespace c then .ok st
      else .error (tok_err c st.pos)
    | some (.Simple stack) =>
      match stack.push c with
      | .error c' => .error (tok_err c' st.pos)
      | .ok (true, stack') =>
        match stack'.into_json with
        | .ok v => .ok { st with processing := some (.FinalizedJsonValue v) }
        | .error _ => .error .UnexpectedEOF
      | .ok (false, stack') =>
        .ok { st with processing := some (.Simple stack') }
    | some (.ObjArr stack) => objArrStep sub st stack c
    | some (.Number stack) =>
      match stack.push c with
      | .error _ => .error (tok_err c st.pos)
      | .ok stack' => numberFinalize stack' peek st
    | some (.FinalizedJsonValue v) =>
      if !(rustIsWhitespace c) then .error (tok_err c st.pos)
      else .ok { st with processing := some (.FinalizedJsonValue v) }

/-- One loop iteration including the final `pos += 1`. -/
def parseStep (sub : List Char → Nat → Except JsonError JsonValue)
    (st : ParseState) (c : Char) (peek : Option Char) :
    Except JsonError ParseState :=
  match parseStepAux sub st c peek with
  | .ok st' => .ok { st' with pos := st'.pos + 1 }
  | .error e => .error e

/-- The character loop of `json_parse_internal`. -/
def parseLoop (sub : List Char → Nat → Except JsonError JsonValue)
    (st : ParseState) : List Char → Except JsonError ParseState
  | [] => .ok st
  | c :: rest =>
    match parseStep sub st c rest.head? with
    | .error e => .error e
    | .ok st' => parseLoop sub st' rest

/-- End-of-input handling of `json_parse_internal` (src/lib.rs lines
    374-382): a finalized value is returned; otherwise leftover buffered
    content is re-parsed purely to surface its own syntax error, and the
    result is `UnexpectedEOF`. -/
def parseFinish (sub : List Char → Nat → Except JsonError JsonValue)
    (st : ParseState) : Except JsonError JsonValue :=
  match st.processing with
  | some (.FinalizedJsonValue v) => .ok v
  | _ =>
    match st.error_ind with
    | some ind =>
      if st.content_str.length > 0 then
        match sub st.content_str ind with
        | .error e => .error e
        | .ok _ => .error .UnexpectedEOF
      else .error .UnexpectedEOF
    | none => .error .UnexpectedEOF

/-- Embedding of `json_parse_internal` (src/lib.rs lines 241-383), with fuel bounding
    the recursion depth on buffered substrings.  Each recursive call runs
    on a strict substring of the original input (the buffered content
    excludes at least the container's opening bracket), so any fuel above
    the input length never runs out. -/
def jsonParseFuel : Nat → List Char → Nat → Except JsonError JsonValue
  | 0, _, _ => .error .UnexpectedEOF
  | fuel + 1, json_str, pos =>
    match parseLoop (jsonParseFuel fuel) (initParseState pos) json_str with
    | .error e => .error e
    | .ok st => parseFinish (jsonParseFuel fuel) st

/-- Embedding of `json_parse` (src/lib.rs lines 230-232). -/
def json_parse (json_str : List Char) : Except JsonError JsonValue :=
  jsonParseFuel (json_str.length + 1) json_str 0


/-- The array-finalization grammar of the spec: `Item (Comma Item)*` or
    empty. -/
inductive ArrSeq : List ObjArrItem → Prop
  | nil : ArrSeq []
  | single (v : JsonValue) : ArrSeq [ObjArrItem.Item v]
  | cons (v : JsonValue) {s : List ObjArrItem} :
      ArrSeq s → s ≠ [] → ArrSeq (ObjArrItem.Item v :: ObjArrItem.Comma :: s)

/-- The object-finalization grammar of the spec:
    `Key Colon Item (Comma Key Colon Item)*` or empty. -/
inductive ObjSeq : List ObjArrItem → Prop
  | nil : ObjSeq []
  | single (k : List Char) (v : JsonValue) :
      ObjSeq [ObjArrItem.Key k, ObjArrItem.Colon, ObjArrItem.Item v]
  | cons (k : List Char) (v : JsonValue) {s : List ObjArrItem} :
      ObjSeq s → s ≠ [] →
      ObjSeq (ObjArrItem.Key k :: ObjArrItem.Colon :: ObjArrItem.Item v ::
        ObjArrItem.Comma :: s)

/-- Token sequences an `ArrayStack` can actually hold: those reachable by
    successful `push` calls from the empty accumulator. -/
inductive ArrReach : List ObjArrItem → Prop
  | nil : ArrReach []
  | push (s : List ObjArrItem) (t : ObjArrItem) (s' : List ObjArrItem) :
      ArrReach s → ArrayStack.push ⟨s⟩ t = .ok ⟨s'⟩ → ArrReach s'

/-- Token sequences an `ObjectStack` can actually hold. -/
inductive ObjReach : List ObjArrItem → Prop
  | nil : ObjReach []
  | push (s : List ObjArrItem) (t : ObjArrItem) (s' : List ObjArrItem) :
      ObjReach s → ObjectStack.push ⟨s⟩ t = .ok ⟨s'⟩ → ObjReach s'

/-- Tracker states reachable from `StackCounter::new` by successful
    pushes. -/
inductive CounterReach : StackCounter → Prop
  | new : CounterReach StackCounter.new
  | push (s : StackCounter) (c : Char) (s' : StackCounter) :
      CounterReach s → StackCounter.push s c = .ok s' → CounterReach s'

theorem getLast?_cons_of_ne {α : Type} (a : α) {l : List α} (h : l ≠ []) :
    (a :: l).getLast? = l.getLast? := by
  cases l with
  | nil => exact absurd rfl h
  | cons b t => exact List.getLast?_cons_cons ..

theorem arrSeq_getLast {s : List ObjArrItem} (h : ArrSeq s) (hne : s ≠ []) :
    ∃ v, s.getLast? = some (ObjArrItem.Item v) := by
  induction h with
  | nil => exact absurd rfl hne
  | single v => exact ⟨v, rfl⟩
  | cons v hs hne' ih =>
    obtain ⟨w, hw⟩ := ih hne'
    refine ⟨w, ?_⟩
    rw [getLast?_cons_of_ne _ (by simp), getLast?_cons_of_ne _ hne']
    exact hw

theorem arrSeq_snoc {s : List ObjArrItem} (v : JsonValue) (h : ArrSeq s)
    (hne : s ≠ []) :
    ArrSeq (s ++ [ObjArrItem.Comma, ObjArrItem.Item v]) := by
  induction h with
  | nil => exact absurd rfl hne
  | single w => exact ArrSeq.cons w (ArrSeq.single v) (by simp)
  | cons w hs hne' ih =>
    exact ArrSeq.cons w (ih hne') (by simp)

/-- Invariant of reachable array accumulators: the held sequence matches
    the grammar, or it is a nonempty grammar sequence plus a trailing
    comma. -/
def ArrInv (s : List ObjArrItem) : Prop :=
  ArrSeq s ∨ ∃ s₀, ArrSeq s₀ ∧ s₀ ≠ [] ∧ s = s₀ ++ [ObjArrItem.Comma]

theorem arrReach_inv {s : List ObjArrItem} (h : ArrReach s) : ArrInv s := by
  induction h with
  | nil => exact Or.inl ArrSeq.nil
  | push s t s' hr hp ih =>
    simp only [ArrayStack.push, ArrayStack.peek] at hp
    rcases hl : s.getLast? with _ | tok
    · rw [hl] at hp
      have hs : s = [] := List.getLast?_eq_none_iff.mp hl
      cases t <;> simp at hp
      subst hs
      exact Or.inl (hp ▸ ArrSeq.single _)
    · rw [hl] at hp
      cases tok with
      | Colon => simp at hp
      | Key _ => simp at hp
      | Comma =>
        cases t with
        | Item v =>
          simp at hp
          rcases ih with hseq | ⟨s₀, hs₀, hne₀, rfl⟩
          · obtain ⟨w, hw⟩ := arrSeq_getLast hseq
              (by rintro rfl; simp at hl)
            rw [hl] at hw; exact absurd hw (by simp)
          · refine Or.inl ?_
            rw [← hp]
            have h2 := arrSeq_snoc v hs₀ hne₀
            simpa [List.append_assoc] using h2
        | Colon => simp at hp
        | Comma => simp at hp
        | Key k => simp at hp
      | Item w =>
        cases t <;> simp at hp
        rcases ih with hseq | ⟨s₀, hs₀, hne₀, rfl⟩
        · exact Or.inr ⟨s, hseq, by rintro rfl; simp at hl, hp.symm⟩
        · rw [List.getLast?_concat] at hl; simp at hl

theorem arr_into_json_ok {s : List ObjArrItem} (h : ArrReach s) :
    (∃ v, ArrayStack.into_json ⟨s⟩ = .ok v) ↔ ArrSeq s := by
  constructor
  · rintro ⟨v, hv⟩
    rcases arrReach_inv h with hseq | ⟨s₀, hs₀, hne₀, rfl⟩
    · exact hseq
    · simp only [ArrayStack.into_json, ArrayStack.peek] at hv
      rw [List.getLast?_concat] at hv
      simp at hv
  · intro hseq
    simp only [ArrayStack.into_json, ArrayStack.peek]
    rcases hl : s.getLast? with _ | tok
    · exact ⟨_, rfl⟩
    · cases tok with
      | Comma =>
        have hne : s ≠ [] := by rintro rfl; simp at hl
        obtain ⟨w, hw⟩ := arrSeq_getLast hseq hne
        rw [hl] at hw; simp at hw
      | Colon => exact ⟨_, rfl⟩
      | Item w => exact ⟨_, rfl⟩
      | Key k => exact ⟨_, rfl⟩

theorem objSeq_getLast {s : List ObjArrItem} (h : ObjSeq s) (hne : s ≠ []) :
    ∃ v, s.getLast? = some (ObjArrItem.Item v) := by
  induction h with
  | nil => exact absurd rfl hne
  | single k v => exact ⟨v, rfl⟩
  | cons k v hs hne' ih =>
    obtain ⟨w, hw⟩ := ih hne'
    refine ⟨w, ?_⟩
    rw [getLast?_cons_of_ne _ (by simp), getLast?_cons_of_ne _ (by simp),
      getLast?_cons_of_ne _ (by simp), getLast?_cons_of_ne _ hne']
    exact hw

theorem objSeq_loop {s : List ObjArrItem} (h : ObjSeq s) :
    ∀ d, ∃ d', objFinalizeLoop s d = .ok d' := by
  induction h with
  | nil => exact fun d => ⟨d, rfl⟩
  | single k v => exact fun d => ⟨_, rfl⟩
  | cons k v hs hne ih =>
    intro d
    obtain ⟨d', hd'⟩ := ih (hashInsert d k v)
    exact ⟨d', by simp only [objFinalizeLoop]; exact hd'⟩

theorem objLoop_seq (s : List ObjArrItem) (d : List (List Char × JsonValue)) :
    ∀ d', objFinalizeLoop s d = .ok d' →
      s.getLast? ≠ some ObjArrItem.Comma → ObjSeq s := by
  induction s, d using objFinalizeLoop.induct with
  | case1 dict => exact fun _ _ _ => ObjSeq.nil
  | case2 dict k v => exact fun _ _ _ => ObjSeq.single k v
  | case3 dict k v rest ih =>
    intro d' h hlast
    cases rest with
    | nil => exact absurd rfl hlast
    | cons r rs =>
      simp only [objFinalizeLoop] at h
      rw [getLast?_cons_of_ne _ (by simp), getLast?_cons_of_ne _ (by simp),
        getLast?_cons_of_ne _ (by simp), getLast?_cons_of_ne _ (by simp)]
        at hlast
      exact ObjSeq.cons k v (ih d' h hlast) (by simp)
  | case4 t dict hn1 hn2 hn3 =>
    intro d' h hlast
    rw [objFinalizeLoop.eq_def] at h
    split at h
    · exact absurd rfl (hn1 ·)
    · exact absurd rfl (hn2 _ _ ·)
    · exact absurd rfl (hn3 _ _ _ ·)
    · exact absurd h (by simp)

theorem obj_into_json_ok (s : List ObjArrItem) :
    (∃ v, ObjectStack.into_json ⟨s⟩ = .ok v) ↔ ObjSeq s := by
  constructor
  · rintro ⟨v, hv⟩
    simp only [ObjectStack.into_json, ObjectStack.peek] at hv
    rcases hl : s.getLast? with _ | tok
    · rw [hl] at hv
      have hs : s = [] := List.getLast?_eq_none_iff.mp hl
      exact hs ▸ ObjSeq.nil
    · rw [hl] at hv
      cases tok with
      | Comma => simp at hv
      | Colon =>
        rcases hloop : objFinalizeLoop s [] with _ | d'
        · rw [hloop] at hv; simp at hv
        · exact objLoop_seq s [] d' hloop (by rw [hl]; simp)
      | Item w =>
        rcases hloop : objFinalizeLoop s [] with _ | d'
        · rw [hloop] at hv; simp at hv
        · exact objLoop_seq s [] d' hloop (by rw [hl]; simp)
      | Key k =>
        rcases hloop : objFinalizeLoop s [] with _ | d'
        · rw [hloop] at hv; simp at hv
        · exact objLoop_seq s [] d' hloop (by rw [hl]; simp)
  · intro hseq
    by_cases hs : s = []
    · exact ⟨.Object [], by rw [hs]; rfl⟩
    · obtain ⟨w, hw⟩ := objSeq_getLast hseq hs
      obtain ⟨d', hd'⟩ := objSeq_loop hseq []
      refine ⟨.Object d', ?_⟩
      simp only [ObjectStack.into_json, ObjectStack.peek]
      rw [hw, hd']

theorem counterReach_escape {s : StackCounter} (h : CounterReach s) :
    s.escape = true → s.in_string = true := by
  induction h with
  | new => intro he; simp [StackCounter.new] at he
  | push s c s' hr hp ih =>
    intro he
    simp only [StackCounter.push] at hp
    split_ifs at hp with h1 h2 h3 h4 h5
    · simp only [Except.ok.injEq] at hp
      subst hp
      simp only [] at he
      exact absurd (ih he) (by simp [h1.2])
    · rcases hl : s.inner.getLast? with _ | last
      · rw [hl] at hp; cases hp
      · rw [hl] at hp
        simp only [] at hp
        split_ifs at hp with h6
        · simp only [Except.ok.injEq] at hp
          subst hp
          simp only [] at he
          exact absurd (ih he) (by simp [h2.2])
    · simp only [Except.ok.injEq] at hp
      subst hp
      simp at he
    · simp only [Except.ok.injEq] at hp
      subst hp
      exact h4.2
    · simp only [Except.ok.injEq] at hp
      subst hp
      simp only [] at he
      exact absurd he h3
    · simp only [Except.ok.injEq] at hp
      subst hp
      exact ih he

theorem smPush_error_iff (M : List (List Char)) (inner : List Char) (c : Char) :
    StringMatcherStack.push ⟨inner, M⟩ c = .error c ↔
      ¬ ∃ m ∈ M, (inner ++ [c]) <+: m := by
  simp only [StringMatcherStack.push]
  by_cases hany : M.any (fun m => (inner ++ [c]).isPrefixOf m) = true
  · rw [if_pos hany]
    simp only [List.any_eq_true, List.isPrefixOf_iff_prefix] at hany
    simp [hany]
  · rw [if_neg hany]
    simp only [List.any_eq_true, List.isPrefixOf_iff_prefix] at hany
    simp [hany]

theorem smPush_ok_iff (M : List (List Char)) (inner : List Char) (c : Char) :
    (∃ st', StringMatcherStack.push ⟨inner, M⟩ c = .ok (true, st')) ↔
      (inner ++ [c]) ∈ M := by
  simp only [StringMatcherStack.push]
  by_cases hany : M.any (fun m => (inner ++ [c]).isPrefixOf m) = true
  · rw [if_pos hany]
    constructor
    · rintro ⟨st', hst'⟩
      simp only [Except.ok.injEq, Prod.mk.injEq] at hst'
      have := hst'.1.symm
      simpa [List.contains] using this
    · intro hmem
      refine ⟨⟨inner ++ [c], M⟩, ?_⟩
      have : M.contains (inner ++ [c]) = true := by
        simpa [List.contains] using hmem
      rw [this]
  · rw [if_neg hany]
    constructor
    · rintro ⟨st', hst'⟩; cases hst'
    · intro hmem
      exfalso
      apply hany
      simp only [List.any_eq_true, List.isPrefixOf_iff_prefix]
      exact ⟨inner ++ [c], hmem, ⟨[], List.append_nil _⟩⟩

/-- C1: the round-trip claim `json_parse (v.to_string()) = Ok v` fails on
    the code for `JsonValue::Text "\u{7F}"`: `escape_str` leaves U+007F
    unescaped (only characters up to U+001F get a `\u` escape), while the
    text automaton rejects every `char::is_control` character, which
    includes U+007F; so parsing the serialized form returns
    `UnexpectedToken {'\u{7F}', 1}` instead of the original value. -/
theorem c1_roundtrip_fails_on_del_char :
    escape_str ['\x7F'] = ['\"', '\x7F', '\"'] ∧
    rustIsControl '\x7F' = true ∧
    json_parse (escape_str ['\x7F']) =
      .error (.UnexpectedToken '\x7F' 1) :=
  ⟨rfl, rfl, rfl⟩

/-- C2: the claim that an exponent is accepted after the whole part `0`
    fails on the code: pushing the single digit `0` moves the number
    automaton to `IntoDecimal`, whose `can_push` accepts only `'.'`, so the
    lookahead finalizes the number at once and `json_parse "0e5"` fails
    with `UnexpectedToken {'e', 1}` instead of `Ok (Number 0.0)`. -/
theorem c2_zero_exponent_rejected :
    json_parse "0e5".toList = .error (.UnexpectedToken 'e' 1) ∧
    (∃ s0, NumberStack.new.push '0' = .ok s0 ∧
      s0.position = NumPosition.IntoDecimal ∧ s0.can_push 'e' = false) :=
  ⟨rfl, ⟨_, rfl, rfl, rfl⟩⟩

/-- C3: for every token sequence a container accumulator can hold (that
    is, reachable by successful pushes from the empty accumulator),
    finalization succeeds exactly when the sequence matches
    `Item (Comma Item)*` or empty for arrays, and
    `Key Colon Item (Comma Key Colon Item)*` or empty for objects; every
    other reachable shape makes `into_json` return `Err(())`. -/
theorem c3_finalize_grammar :
    (∀ s : List ObjArrItem, ArrReach s →
      ((∃ v, ArrayStack.into_json ⟨s⟩ = .ok v) ↔ ArrSeq s)) ∧
    (∀ s : List ObjArrItem, ObjReach s →
      ((∃ v, ObjectStack.into_json ⟨s⟩ = .ok v) ↔ ObjSeq s)) :=
  ⟨fun _ h => arr_into_json_ok h, fun s _ => obj_into_json_ok s⟩

theorem c3_finalize_grammar_witness :
    (∃ v, ArrayStack.into_json ⟨[ObjArrItem.Item JsonValue.Null]⟩ = .ok v) ∧
    (∃ v, ObjectStack.into_json ⟨[]⟩ = .ok v) :=
  ⟨(c3_finalize_grammar.1 [ObjArrItem.Item JsonValue.Null]
      (ArrReach.push [] (ObjArrItem.Item JsonValue.Null) _ ArrReach.nil rfl)).2
      (ArrSeq.single JsonValue.Null),
   (c3_finalize_grammar.2 [] ObjReach.nil).2 ObjSeq.nil⟩

/-- C4: when a container delimiter (at the container's own level, outside
    a string) or an end character triggers the recursive parse of the
    buffered substring and that recursive call fails, an `UnexpectedEOF`
    is converted into `UnexpectedToken` carrying the triggering character
    and its absolute offset, and any other error is propagated verbatim. -/
theorem c4_recursion_error_adapted :
    (∀ (sub : List Char → Nat → Except JsonError JsonValue) (st : ParseState)
        (stack : ObjArrBox) (c : Char) (d : ObjArrItem) (ind : Nat)
        (e : JsonError),
      stack.get_delimiter c = some d →
      st.counter.level = 1 → st.counter.in_string = false →
      st.error_ind = some ind →
      contentNonWs st.content_str = true →
      sub st.content_str ind = .error e →
      objArrStep sub st stack c =
        .error (if e = .UnexpectedEOF then tok_err c st.pos else e)) ∧
    (∀ (sub : List Char → Nat → Except JsonError JsonValue) (st : ParseState)
        (stack : ObjArrBox) (c : Char) (ind : Nat) (e : JsonError),
      stack.is_end_char c = true →
      st.counter.level = 0 → st.counter.in_string = false →
      st.error_ind = some ind →
      contentNonWs st.content_str = true →
      sub st.content_str ind = .error e →
      objArrStep sub st stack c =
        .error (if e = .UnexpectedEOF then tok_err c st.pos else e)) := by
  constructor
  · intro sub st stack c d ind e hdel hlv hstr hind hcon hsub
    simp [objArrStep, hdel, hlv, hstr, hind, hcon, hsub]
  · intro sub st stack c ind e hend hlv hstr hind hcon hsub
    simp [objArrStep, hend, hlv, hstr, hind, hcon, hsub]

theorem c4_recursion_error_adapted_witness :
    objArrStep (fun _ _ => .error .UnexpectedEOF)
      ⟨none, ⟨['['], false, false⟩, some 1, ['x'], false, 3⟩
      (.arrB ⟨[]⟩) ',' = .error (.UnexpectedToken ',' 3) := by
  have h := c4_recursion_error_adapted.1 (fun _ _ => .error .UnexpectedEOF)
    ⟨none, ⟨['['], false, false⟩, some 1, ['x'], false, 3⟩
    (.arrB ⟨[]⟩) ',' ObjArrItem.Comma 1 .UnexpectedEOF
    rfl rfl rfl rfl (by decide) rfl
  simpa [tok_err] using h

/-- C5: in the depth/quote tracker, pushing an unescaped backslash inside
    a string sets the escape flag; for any reachable tracker state with the
    escape flag set, the very next pushed character always clears it and
    changes nothing else (in particular a quote does not toggle the
    in-string state); and while inside a string no pushed character ever
    changes the bracket stack. -/
theorem c5_escape_transient :
    (∀ s : StackCounter, s.in_string = true → s.escape = false →
      s.push '\\' = .ok { s with escape := true }) ∧
    (∀ s : StackCounter, CounterReach s → s.escape = true → ∀ c : Char,
      s.push c = .ok { s with escape := false }) ∧
    (∀ (s : StackCounter) (c : Char), s.in_string = true →
      ∃ s', s.push c = .ok s' ∧ s'.inner = s.inner) := by
  refine ⟨?_, ?_, ?_⟩
  · intro s h1 h2
    simp [StackCounter.push, h1, h2]
  · intro s hr he c
    have hstr : s.in_string = true := counterReach_escape hr he
    simp [StackCounter.push, hstr, he]
  · intro s c h
    simp only [StackCounter.push, h]
    simp only [and_false, if_false, Bool.true_eq_false]
    split_ifs <;> exact ⟨_, rfl, rfl⟩

theorem c5_escape_transient_witness :
    StackCounter.push ⟨['['], true, true⟩ '\x7d' = .ok ⟨['['], true, false⟩ := by
  have hreach : CounterReach ⟨['['], true, true⟩ :=
    CounterReach.push _ '\\' _ (CounterReach.push _ '\"' _
      (CounterReach.push _ '[' _ CounterReach.new rfl) rfl) rfl
  exact c5_escape_transient.2.1 _ hreach rfl '\x7d'

/-- C6: `json_parse "01"` fails with `UnexpectedToken {'1', 1}`: pushing
    `'0'` succeeds, the lookahead `can_push '1'` is false so the single
    `0` is finalized to the number 0, and `'1'` then arrives at the
    finalized value. -/
theorem c6_leading_zero_rejected :
    json_parse "01".toList = .error (.UnexpectedToken '1' 1) ∧
    (∃ s0, NumberStack.new.push '0' = .ok s0 ∧ s0.can_push '1' = false ∧
      s0.into_json = .ok (.Number ⟨0, 1⟩)) :=
  ⟨rfl, ⟨_, rfl, rfl, rfl⟩⟩

/-- C7: `json_parse "{a:1}"` fails with `UnexpectedToken {'a', 1}`; in
    general, whenever an object accumulator expects a key, a buffered
    non-whitespace non-structural character other than `'"'` (either the
    first buffered character with `next_must_be_key`, or a later one while
    the quote obligation is still pending) fails immediately with
    `UnexpectedToken` at that character's offset. -/
theorem c7_unquoted_key_rejected :
    json_parse "\x7ba:1\x7d".toList = .error (.UnexpectedToken 'a' 1) ∧
    (∀ (sub : List Char → Nat → Except JsonError JsonValue) (st : ParseState)
        (stack : ObjArrBox) (c : Char),
      stack.get_delimiter c = none →
      stack.is_end_char c = false →
      (st.error_ind = none ∧ stack.next_must_be_key = true ∨
        st.error_ind ≠ none ∧ st.next_must_be_quote = true) →
      rustIsWhitespace c = false →
      c ≠ '\"' →
      objArrStep sub st stack c = .error (tok_err c st.pos)) := by
  refine ⟨rfl, ?_⟩
  intro sub st stack c hdel hend hkey hws hq
  rcases hkey with ⟨hei, hnk⟩ | ⟨hei, hnq⟩
  · simp [objArrStep, hdel, hend, hei, hnk, hws, hq]
  · rcases hi : st.error_ind with _ | i
    · exact absurd hi hei
    · simp [objArrStep, hdel, hend, hi, hnq, hws, hq]

theorem c7_unquoted_key_rejected_witness :
    objArrStep (fun _ _ => .error .UnexpectedEOF)
      ⟨none, ⟨['\x7b'], false, false⟩, none, [], false, 1⟩
      (.objB ⟨[]⟩) 'a' = .error (.UnexpectedToken 'a' 1) := by
  have h := c7_unquoted_key_rejected.2 (fun _ _ => .error .UnexpectedEOF)
    ⟨none, ⟨['\x7b'], false, false⟩, none, [], false, 1⟩
    (.objB ⟨[]⟩) 'a' rfl rfl (Or.inl ⟨rfl, rfl⟩) rfl (by decide)
  simpa [tok_err] using h

/-- C8: for the boolean and null automata, `push c` returns `Err(c)`
    exactly when the accumulated string extended by `c` is a prefix of no
    candidate literal, and returns `Ok(true)` exactly when the extended
    string equals one of the candidate literals. -/
theorem c8_shortest_unambiguous_rejection :
    (∀ (inner : List Char) (c : Char),
      ((BoolStack.push ⟨⟨inner, BOOL_STRS⟩⟩ c = .error c) ↔
        ¬ ∃ m ∈ BOOL_STRS, (inner ++ [c]) <+: m) ∧
      ((∃ st', BoolStack.push ⟨⟨inner, BOOL_STRS⟩⟩ c = .ok (true, st')) ↔
        (inner ++ [c]) ∈ BOOL_STRS)) ∧
    (∀ (inner : List Char) (c : Char),
      ((NullStack.push ⟨⟨inner, NULL_STRS⟩⟩ c = .error c) ↔
        ¬ ∃ m ∈ NULL_STRS, (inner ++ [c]) <+: m) ∧
      ((∃ st', NullStack.push ⟨⟨inner, NULL_STRS⟩⟩ c = .ok (true, st')) ↔
        (inner ++ [c]) ∈ NULL_STRS)) := by
  constructor
  · intro inner c
    constructor
    · rw [← smPush_error_iff BOOL_STRS inner c]
      unfold BoolStack.push
      rcases hm : StringMatcherStack.push ⟨inner, BOOL_STRS⟩ c with c' | ⟨b, m⟩
      · simp
      · simp
    · rw [← smPush_ok_iff BOOL_STRS inner c]
      unfold BoolStack.push
      rcases hm : StringMatcherStack.push ⟨inner, BOOL_STRS⟩ c with c' | ⟨b, m⟩
      · simp
      · simp
  · intro inner c
    constructor
    · rw [← smPush_error_iff NULL_STRS inner c]
      unfold NullStack.push
      rcases hm : StringMatcherStack.push ⟨inner, NULL_STRS⟩ c with c' | ⟨b, m⟩
      · simp
      · simp
    · rw [← smPush_ok_iff NULL_STRS inner c]
      unfold NullStack.push
      rcases hm : StringMatcherStack.push ⟨inner, NULL_STRS⟩ c with c' | ⟨b, m⟩
      · simp
      · simp

theorem c8_shortest_unambiguous_rejection_witness :
    (∃ st', BoolStack.push ⟨⟨"tru".toList, BOOL_STRS⟩⟩ 'e' = .ok (true, st')) ∧
    BoolStack.push ⟨⟨"fa".toList, BOOL_STRS⟩⟩ 's' = .error 's' :=
  ⟨((c8_shortest_unambiguous_rejection.1 "tru".toList 'e').2).mpr (by decide),
   ((c8_shortest_unambiguous_rejection.1 "fa".toList 's').1).mpr (by decide)⟩

/-- C9: duplicate object keys are not an error and the textually last
    occurrence wins: `json_parse "{\"a\":1,\"a\":2}"` returns the object
    mapping `a` to 2, and in general finalizing an object token sequence
    with the same key twice keeps the value of the later occurrence. -/
theorem c9_duplicate_keys_last_wins :
    json_parse "\x7b\"a\":1,\"a\":2\x7d".toList =
      .ok (.Object [("a".toList, .Number ⟨2, 1⟩)]) ∧
    (∀ (k : List Char) (v₁ v₂ : JsonValue),
      ObjectStack.into_json ⟨[.Key k, .Colon, .Item v₁, .Comma,
        .Key k, .Colon, .Item v₂]⟩ = .ok (.Object [(k, v₂)])) := by
  refine ⟨rfl, ?_⟩
  intro k v₁ v₂
  simp [ObjectStack.into_json, ObjectStack.peek, objFinalizeLoop, hashInsert]

/-- C10: on an `Array`, `get k` returns the element at index `i` exactly
    when `k` parses as a `usize` `i` in bounds (and Rust's `usize` parsing
    accepts the non-canonical forms `"+1"` and `"01"`); on values that are
    neither `Object` nor `Array`, `get` always returns `None`; and
    `get_mut` performs the identical lookup. -/
theorem c10_get_array_index :
    (∀ (arr : List JsonValue) (k : List Char) (v : JsonValue),
      (JsonValue.Array arr).get k = some v ↔
        ∃ i, rustParseUsize k = some i ∧ i < arr.length ∧
          arr.get? i = some v) ∧
    rustParseUsize "+1".toList = some 1 ∧
    rustParseUsize "01".toList = some 1 ∧
    (∀ (s k : List Char), (JsonValue.Text s).get k = none) ∧
    (∀ (n : ExactRat) (k : List Char), (JsonValue.Number n).get k = none) ∧
    (∀ (b : Bool) (k : List Char), (JsonValue.Boolean b).get k = none) ∧
    (∀ k : List Char, JsonValue.Null.get k = none) ∧
    (∀ (v : JsonValue) (k : List Char), v.get_mut k = v.get k) := by
  refine ⟨?_, rfl, rfl, fun _ _ => rfl, fun _ _ => rfl, fun _ _ => rfl,
    fun _ => rfl, ?_⟩
  · intro arr k v
    constructor
    · intro h
      simp only [JsonValue.get] at h
      rcases hp : rustParseUsize k with _ | i
      · rw [hp] at h; cases h
      · rw [hp] at h
        simp only [Option.bind_some, Option.some_bind] at h
        refine ⟨i, rfl, ?_, h⟩
        cases hlt : decide (i < arr.length) with
        | true => exact of_decide_eq_true hlt
        | false =>
          rw [List.get?_eq_none.mpr (Nat.le_of_not_lt
            (of_decide_eq_false hlt))] at h
          cases h
    · rintro ⟨i, hi, _, hv⟩
      simp only [JsonValue.get, hi, Option.some_bind]
      exact hv
  · intro v k
    cases v <;> rfl

theorem c10_get_array_index_witness :
    (JsonValue.Array [JsonValue.Null, JsonValue.Boolean true]).get
      "+1".toList = some (JsonValue.Boolean true) :=
  (c10_get_array_index.1 [JsonValue.Null, JsonValue.Boolean true]
    "+1".toList (JsonValue.Boolean true)).mpr
    ⟨1, by decide, by decide, rfl⟩
